import Mathlib

/-!
Verification of the relationship-type sanitization layer of the
`server/neo4j_patch.py` module.

Strings are embedded as `List Char`.  Each Python function of the module is
translated into an executable Lean definition:

* `sanitize_relationship_type` — the token sanitizer (§4.1 of the design):
  character replacements, the `while '__' in s` collapse loop, and the
  final `strip('_')`.
* `sanitize_graph_data` — the recursive structure walker (§4.2) over an
  embedding `Value` of Python dict/list/str/scalar data.
* `patched_query`'s regex rewriting — `rewriteQuery` (§4.3), modelling the
  `re.sub` scan with pattern `-\[(?:r)?:([^\]]+)\]->` and the
  `full_match.replace(rel_type, sanitized)` replacement callback.
* `patch_mem0_graph` / `patch_neo4j_queries` / `apply_all_patches` — the
  try/except installation flow (§4.4), modelled over an explicit exception
  type.

Loops that are not structurally recursive in the source (the `while` collapse
loop, the `re.sub` scan, `str.replace`) are embedded with an explicit
iteration budget that provably suffices (each iteration strictly shrinks the
remaining input), so that every definition evaluates by kernel reduction.
-/

/-! ## Token sanitizer (`sanitize_relationship_type`) -/

/-- One single-character replacement pass, the embedding of Python
`s.replace(a, '_')` for a one-character pattern `a`. -/
def replaceChar (a : Char) (s : List Char) : List Char :=
  s.map (fun c => if c = a then '_' else c)

/-- Embedding of the Python substring test `'__' in s`: does `s` contain two
adjacent underscores? -/
def hasDoubleUnderscore : List Char → Bool
  | [] => false
  | [_] => false
  | a :: b :: rest => (a = '_' && b = '_') || hasDoubleUnderscore (b :: rest)

/-- One pass of Python `s.replace('__', '_')`: scan left to right, each
non-overlapping occurrence of two underscores is emitted as one. -/
def collapsePass : List Char → List Char
  | [] => []
  | [c] => [c]
  | a :: b :: rest =>
      if a = '_' ∧ b = '_' then '_' :: collapsePass rest
      else a :: collapsePass (b :: rest)

/-- The `while '__' in sanitized: sanitized = sanitized.replace('__', '_')`
loop.  Each iteration on a string still containing `__` strictly decreases the
length, so `s.length` iterations always reach the fixed point; the budget is
only a termination device, never exhausted on the loop's own runs. -/
def collapseIter : Nat → List Char → List Char
  | 0, s => s
  | n + 1, s =>
      if hasDoubleUnderscore s = true then collapseIter n (collapsePass s) else s

/-- Embedding of Python `s.strip('_')`: drop leading and trailing
underscores. -/
def stripUnderscore (l : List Char) : List Char :=
  ((l.dropWhile (· == '_')).reverse.dropWhile (· == '_')).reverse

/-- The five ordered character replacements of `sanitize_relationship_type`:
colon, forward slash, backslash, space and hyphen each become an
underscore. -/
def replaceBad (s : List Char) : List Char :=
  replaceChar '-' (replaceChar ' ' (replaceChar '\\' (replaceChar '/' (replaceChar ':' s))))

/-- Embedding of `sanitize_relationship_type`: empty (falsy) input is returned
unchanged; otherwise replace `:`, `/`, `\`, space and `-` by `_`, collapse runs
of underscores, and strip leading/trailing underscores.  (The `logger.debug`
call is diagnostic only and not modelled.) -/
def sanitize_relationship_type (s : List Char) : List Char :=
  if s = [] then s
  else stripUnderscore (collapseIter (replaceBad s).length (replaceBad s))

example : sanitize_relationship_type ("a:b:c".data) = "a_b_c".data := by decide

example : sanitize_relationship_type ("lives:in:city".data) = "lives_in_city".data := by
  decide

example : sanitize_relationship_type ("-".data) = [] := by decide

example : sanitize_relationship_type (" a--b ".data) = "a_b".data := by decide

/-! ## Lemmas about the token sanitizer -/

theorem mem_replaceChar {c a : Char} {s : List Char} (h : c ∈ replaceChar a s) :
    c = '_' ∨ (c ∈ s ∧ c ≠ a) := by
  simp only [replaceChar, List.mem_map] at h
  obtain ⟨x, hx, hxc⟩ := h
  by_cases hxa : x = a
  · left
    rw [if_pos hxa] at hxc
    exact hxc.symm
  · right
    rw [if_neg hxa] at hxc
    exact ⟨hxc ▸ hx, hxc ▸ hxa⟩

theorem not_mem_replaceChar_self {a : Char} (ha : a ≠ '_') (s : List Char) :
    a ∉ replaceChar a s := by
  intro h
  rcases mem_replaceChar h with h1 | ⟨_, h2⟩
  · exact ha h1
  · exact h2 rfl

theorem not_mem_replaceChar {b a : Char} {s : List Char} (hb : b ≠ '_') (h : b ∉ s) :
    b ∉ replaceChar a s := by
  intro hm
  rcases mem_replaceChar hm with h1 | ⟨h2, _⟩
  · exact hb h1
  · exact h h2

theorem replaceChar_eq_self {a : Char} {s : List Char} (h : a ∉ s) :
    replaceChar a s = s := by
  have : s.map (fun c => if c = a then '_' else c) = s.map id := by
    apply List.map_congr_left
    intro x hx
    have : x ≠ a := fun e => h (e ▸ hx)
    simp [this]
  simpa [replaceChar] using this

theorem not_mem_replaceBad {b : Char} {s : List Char}
    (hb : b ∈ ([':', '/', '\\', ' ', '-'] : List Char)) : b ∉ replaceBad s := by
  have h_ : b ≠ '_' := by
    simp only [List.mem_cons, List.not_mem_nil, or_false] at hb
    rcases hb with rfl | rfl | rfl | rfl | rfl <;> decide
  simp only [List.mem_cons, List.not_mem_nil, or_false] at hb
  unfold replaceBad
  rcases hb with rfl | rfl | rfl | rfl | rfl
  · exact not_mem_replaceChar h_ (not_mem_replaceChar h_ (not_mem_replaceChar h_
      (not_mem_replaceChar h_ (not_mem_replaceChar_self h_ s))))
  · exact not_mem_replaceChar h_ (not_mem_replaceChar h_ (not_mem_replaceChar h_
      (not_mem_replaceChar_self h_ _)))
  · exact not_mem_replaceChar h_ (not_mem_replaceChar h_ (not_mem_replaceChar_self h_ _))
  · exact not_mem_replaceChar h_ (not_mem_replaceChar_self h_ _)
  · exact not_mem_replaceChar_self h_ _

theorem replaceBad_eq_self {s : List Char}
    (h : ∀ b ∈ ([':', '/', '\\', ' ', '-'] : List Char), b ∉ s) : replaceBad s = s := by
  unfold replaceBad
  rw [replaceChar_eq_self (h ':' (by decide)), replaceChar_eq_self (h '/' (by decide)),
    replaceChar_eq_self (h '\\' (by decide)), replaceChar_eq_self (h ' ' (by decide)),
    replaceChar_eq_self (h '-' (by decide))]

theorem mem_collapsePass : ∀ {s : List Char} {c : Char}, c ∈ collapsePass s → c ∈ s
  | [], _, h => by simp [collapsePass] at h
  | [a], _, h => by simpa [collapsePass] using h
  | a :: b :: rest, c, h => by
    by_cases hab : a = '_' ∧ b = '_'
    · rw [collapsePass, if_pos hab] at h
      rcases List.mem_cons.1 h with h1 | h1
      · simp [h1, hab.1]
      · simp [mem_collapsePass h1]
    · rw [collapsePass, if_neg hab] at h
      rcases List.mem_cons.1 h with h1 | h1
      · simp [h1]
      · simpa using Or.inr (mem_collapsePass h1)

theorem collapsePass_length_le : ∀ s : List Char, (collapsePass s).length ≤ s.length
  | [] => by simp [collapsePass]
  | [a] => by simp [collapsePass]
  | a :: b :: rest => by
    by_cases hab : a = '_' ∧ b = '_'
    · rw [collapsePass, if_pos hab]
      have := collapsePass_length_le rest
      simp only [List.length_cons]
      omega
    · rw [collapsePass, if_neg hab]
      have := collapsePass_length_le (b :: rest)
      simp only [List.length_cons] at *
      omega

theorem collapsePass_length_lt :
    ∀ {s : List Char}, hasDoubleUnderscore s = true → (collapsePass s).length < s.length
  | [], h => by simp [hasDoubleUnderscore] at h
  | [a], h => by simp [hasDoubleUnderscore] at h
  | a :: b :: rest, h => by
    by_cases hab : a = '_' ∧ b = '_'
    · rw [collapsePass, if_pos hab]
      have := collapsePass_length_le rest
      simp only [List.length_cons]
      omega
    · rw [collapsePass, if_neg hab]
      have hrest : hasDoubleUnderscore (b :: rest) = true := by
        simp only [hasDoubleUnderscore, Bool.or_eq_true, Bool.and_eq_true,
          decide_eq_true_eq] at h
        rcases h with ⟨h1, h2⟩ | h
        · exact absurd ⟨h1, h2⟩ hab
        · exact h
      have := collapsePass_length_lt hrest
      simp only [List.length_cons] at *
      omega

theorem mem_collapseIter : ∀ (n : Nat) {s : List Char} {c : Char},
    c ∈ collapseIter n s → c ∈ s
  | 0, _, _, h => h
  | n + 1, s, c, h => by
    rw [collapseIter] at h
    split at h
    · exact mem_collapsePass (mem_collapseIter n h)
    · exact h

theorem collapseIter_eq_self {s : List Char} (h : hasDoubleUnderscore s = false) :
    ∀ n, collapseIter n s = s
  | 0 => rfl
  | n + 1 => by rw [collapseIter, h]; simp

theorem hasDU_collapseIter : ∀ (n : Nat) (s : List Char), s.length ≤ n →
    hasDoubleUnderscore (collapseIter n s) = false
  | 0, s, hle => by
    have : s = [] := List.length_eq_zero.1 (Nat.le_zero.1 hle)
    subst this
    simp [collapseIter, hasDoubleUnderscore]
  | n + 1, s, hle => by
    rw [collapseIter]
    by_cases h : hasDoubleUnderscore s = true
    · rw [if_pos h]
      exact hasDU_collapseIter n _ (by have := collapsePass_length_lt h; omega)
    · rw [if_neg h]
      simpa using h

theorem hasDU_cons_false {c : Char} {t : List Char}
    (h : hasDoubleUnderscore (c :: t) = false) : hasDoubleUnderscore t = false := by
  cases t with
  | nil => rfl
  | cons b r =>
    simp only [hasDoubleUnderscore, Bool.or_eq_false_iff] at h
    exact h.2

theorem hasDU_append_left : ∀ (l1 l2 : List Char),
    hasDoubleUnderscore (l1 ++ l2) = false → hasDoubleUnderscore l1 = false
  | [], _, _ => rfl
  | [_], _, _ => rfl
  | a :: b :: r, l2, h => by
    simp only [List.cons_append] at h
    simp only [hasDoubleUnderscore, Bool.or_eq_false_iff] at h ⊢
    refine ⟨h.1, ?_⟩
    have := hasDU_append_left (b :: r) l2 (by simpa using h.2)
    simpa using this

theorem hasDU_append_right : ∀ (l1 l2 : List Char),
    hasDoubleUnderscore (l1 ++ l2) = false → hasDoubleUnderscore l2 = false
  | [], _, h => h
  | _ :: r, l2, h => hasDU_append_right r l2 (hasDU_cons_false (by simpa using h))

/-- The strip step returns a contiguous piece of its input. -/
theorem stripUnderscore_contiguous (l : List Char) :
    ∃ s t : List Char, s ++ (stripUnderscore l ++ t) = l := by
  unfold stripUnderscore
  have h1 : (l.dropWhile (· == '_')).reverse.dropWhile (· == '_') <:+
      (l.dropWhile (· == '_')).reverse := List.dropWhile_suffix _
  have h2 := List.reverse_prefix.2 h1
  rw [List.reverse_reverse] at h2
  obtain ⟨t, ht⟩ := h2
  have h3 : l.dropWhile (· == '_') <:+ l := List.dropWhile_suffix _
  obtain ⟨s, hs⟩ := h3
  exact ⟨s, t, by rw [ht, hs]⟩

theorem hasDU_stripUnderscore {l : List Char} (h : hasDoubleUnderscore l = false) :
    hasDoubleUnderscore (stripUnderscore l) = false := by
  obtain ⟨s, t, hst⟩ := stripUnderscore_contiguous l
  rw [← hst] at h
  exact hasDU_append_left _ t (hasDU_append_right s _ h)

theorem mem_stripUnderscore {c : Char} {l : List Char} (h : c ∈ stripUnderscore l) :
    c ∈ l := by
  obtain ⟨s, t, hst⟩ := stripUnderscore_contiguous l
  rw [← hst]
  simp [h]

theorem head?_dropWhile_underscore : ∀ l : List Char,
    (l.dropWhile (· == '_')).head? ≠ some '_'
  | [] => by simp
  | c :: t => by
    rw [List.dropWhile_cons]
    by_cases hc : c = '_'
    · simp only [hc]
      simpa using head?_dropWhile_underscore t
    · have : (c == '_') = false := by simpa using hc
      simp only [this]
      simp [hc]

theorem getLast?_of_suffix {l1 l2 : List Char} (h : l1 <:+ l2) (hne : l1 ≠ []) :
    l1.getLast? = l2.getLast? := by
  obtain ⟨t, rfl⟩ := h
  rw [List.getLast?_append]
  cases h' : l1.getLast? with
  | none => exact absurd (List.getLast?_eq_none_iff.1 h') hne
  | some a => simp

theorem stripUnderscore_head (l : List Char) : (stripUnderscore l).head? ≠ some '_' := by
  unfold stripUnderscore
  rw [List.head?_reverse]
  by_cases hd : (l.dropWhile (· == '_')).reverse.dropWhile (· == '_') = []
  · rw [hd]; simp
  · rw [getLast?_of_suffix (List.dropWhile_suffix _) hd, List.getLast?_reverse]
    exact head?_dropWhile_underscore l

theorem stripUnderscore_getLast (l : List Char) :
    (stripUnderscore l).getLast? ≠ some '_' := by
  unfold stripUnderscore
  rw [List.getLast?_reverse]
  exact head?_dropWhile_underscore _

theorem dropWhile_underscore_eq_self {l : List Char} (h : l.head? ≠ some '_') :
    l.dropWhile (· == '_') = l := by
  cases l with
  | nil => rfl
  | cons c t =>
    have hc : c ≠ '_' := fun e => h (by simp [e])
    rw [List.dropWhile_cons]
    have : (c == '_') = false := by simpa using hc
    simp [this]

theorem stripUnderscore_eq_self {l : List Char} (h1 : l.head? ≠ some '_')
    (h2 : l.getLast? ≠ some '_') : stripUnderscore l = l := by
  unfold stripUnderscore
  rw [dropWhile_underscore_eq_self h1]
  rw [dropWhile_underscore_eq_self (by rwa [List.head?_reverse])]
  exact List.reverse_reverse l

/-! ## Invariants of the token sanitizer -/

theorem sanitize_not_mem_bad {b : Char} {s : List Char}
    (hb : b ∈ ([':', '/', '\\', ' ', '-'] : List Char)) :
    b ∉ sanitize_relationship_type s := by
  unfold sanitize_relationship_type
  split
  · simp_all
  · intro h
    exact not_mem_replaceBad hb (mem_collapseIter _ (mem_stripUnderscore h))

theorem sanitize_noDU (s : List Char) :
    hasDoubleUnderscore (sanitize_relationship_type s) = false := by
  unfold sanitize_relationship_type
  split
  · simp_all [hasDoubleUnderscore]
  · exact hasDU_stripUnderscore (hasDU_collapseIter _ _ (Nat.le_refl _))

theorem sanitize_head (s : List Char) :
    (sanitize_relationship_type s).head? ≠ some '_' := by
  unfold sanitize_relationship_type
  split
  · simp_all
  · exact stripUnderscore_head _

theorem sanitize_getLast (s : List Char) :
    (sanitize_relationship_type s).getLast? ≠ some '_' := by
  unfold sanitize_relationship_type
  split
  · simp_all
  · exact stripUnderscore_getLast _

theorem sanitize_idem (s : List Char) :
    sanitize_relationship_type (sanitize_relationship_type s) =
      sanitize_relationship_type s := by
  by_cases hr : sanitize_relationship_type s = []
  · rw [hr]
    rfl
  · conv_lhs => rw [sanitize_relationship_type]
    rw [if_neg hr]
    rw [replaceBad_eq_self (fun b hb => sanitize_not_mem_bad hb)]
    rw [collapseIter_eq_self (sanitize_noDU s)]
    exact stripUnderscore_eq_self (sanitize_head s) (sanitize_getLast s)

theorem replaceBad_all_underscore {s : List Char}
    (h : ∀ c ∈ s, c ∈ ([':', '/', '\\', ' ', '-', '_'] : List Char)) :
    ∀ c ∈ replaceBad s, c = '_' := by
  intro c hc
  unfold replaceBad at hc
  rcases mem_replaceChar hc with e | ⟨hc, ne1⟩
  · exact e
  rcases mem_replaceChar hc with e | ⟨hc, ne2⟩
  · exact e
  rcases mem_replaceChar hc with e | ⟨hc, ne3⟩
  · exact e
  rcases mem_replaceChar hc with e | ⟨hc, ne4⟩
  · exact e
  rcases mem_replaceChar hc with e | ⟨hc, ne5⟩
  · exact e
  have := h c hc
  simp only [List.mem_cons, List.not_mem_nil, or_false] at this
  rcases this with e | e | e | e | e | e
  · exact absurd e ne5
  · exact absurd e ne4
  · exact absurd e ne3
  · exact absurd e ne2
  · exact absurd e ne1
  · exact e

theorem dropWhile_underscore_all {l : List Char} (h : ∀ c ∈ l, c = '_') :
    l.dropWhile (· == '_') = [] := by
  induction l with
  | nil => rfl
  | cons c t ih =>
    rw [List.dropWhile_cons]
    have : (c == '_') = true := by simp [h c (by simp)]
    simp only [this, if_true]
    exact ih (fun x hx => h x (by simp [hx]))

theorem sanitize_all_bad_eq_nil {s : List Char}
    (h : ∀ c ∈ s, c ∈ ([':', '/', '\\', ' ', '-', '_'] : List Char)) :
    sanitize_relationship_type s = [] := by
  unfold sanitize_relationship_type
  split
  · assumption
  · have hall : ∀ c ∈ collapseIter (replaceBad s).length (replaceBad s), c = '_' :=
      fun c hc => replaceBad_all_underscore h c (mem_collapseIter _ hc)
    unfold stripUnderscore
    rw [dropWhile_underscore_all hall]
    rfl

/-! ## Claims about the token sanitizer -/

/-- C3: for every non-empty input string `s`, `sanitize_relationship_type s`
contains no colon, forward slash, backslash, space or hyphen; contains no two
consecutive underscores; and neither starts nor ends with an underscore. -/
theorem claim_C3 (s : List Char) (_h : s ≠ []) :
    (':' ∉ sanitize_relationship_type s ∧ '/' ∉ sanitize_relationship_type s ∧
      '\\' ∉ sanitize_relationship_type s ∧ ' ' ∉ sanitize_relationship_type s ∧
      '-' ∉ sanitize_relationship_type s) ∧
    hasDoubleUnderscore (sanitize_relationship_type s) = false ∧
    (sanitize_relationship_type s).head? ≠ some '_' ∧
    (sanitize_relationship_type s).getLast? ≠ some '_' :=
  ⟨⟨sanitize_not_mem_bad (by decide), sanitize_not_mem_bad (by decide),
      sanitize_not_mem_bad (by decide), sanitize_not_mem_bad (by decide),
      sanitize_not_mem_bad (by decide)⟩,
    sanitize_noDU s, sanitize_head s, sanitize_getLast s⟩

/-- Witness for C3 at the concrete non-empty input `": a-b:"`. -/
theorem claim_C3_witness :
    (": a-b:".data ≠ ([] : List Char)) ∧
    ((':' ∉ sanitize_relationship_type ": a-b:".data ∧
        '/' ∉ sanitize_relationship_type ": a-b:".data ∧
        '\\' ∉ sanitize_relationship_type ": a-b:".data ∧
        ' ' ∉ sanitize_relationship_type ": a-b:".data ∧
        '-' ∉ sanitize_relationship_type ": a-b:".data) ∧
      hasDoubleUnderscore (sanitize_relationship_type ": a-b:".data) = false ∧
      (sanitize_relationship_type ": a-b:".data).head? ≠ some '_' ∧
      (sanitize_relationship_type ": a-b:".data).getLast? ≠ some '_') :=
  ⟨by decide, claim_C3 (": a-b:".data) (by decide)⟩

/-- C4: the token sanitizer is idempotent on every string, and maps the empty
string to the empty string. -/
theorem claim_C4 :
    (∀ s : List Char, sanitize_relationship_type (sanitize_relationship_type s) =
      sanitize_relationship_type s) ∧
    sanitize_relationship_type "".data = "".data :=
  ⟨sanitize_idem, rfl⟩

/-- C10: the sanitizer can return the empty string on non-empty input — every
input made only of the replaced characters and underscores sanitizes to the
empty string, as the concrete non-empty inputs `":"`, `"-"` and `"___"` show. -/
theorem claim_C10 :
    (∀ s : List Char, (∀ c ∈ s, c ∈ ([':', '/', '\\', ' ', '-', '_'] : List Char)) →
      sanitize_relationship_type s = []) ∧
    ((":".data ≠ ([] : List Char)) ∧ sanitize_relationship_type ":".data = []) ∧
    sanitize_relationship_type "-".data = [] ∧
    sanitize_relationship_type "___".data = [] :=
  ⟨fun _ h => sanitize_all_bad_eq_nil h, ⟨by decide, by decide⟩, by decide, by decide⟩

/-- Witness for C10 at the concrete input `" :"`. -/
theorem claim_C10_witness :
    (∀ c ∈ (" :".data : List Char), c ∈ ([':', '/', '\\', ' ', '-', '_'] : List Char)) ∧
    sanitize_relationship_type " :".data = [] :=
  ⟨by decide, claim_C10.1 (" :".data) (by decide)⟩

/-! ## Graph payloads and the structure walker (`sanitize_graph_data`)

Python data reaching `sanitize_graph_data` is an arbitrarily nested composite
of dicts (string keys, insertion-ordered), lists, strings and other scalars.
It is embedded as the mutually inductive types `Value` (a node), `VList` (the
elements of a list) and `VDict` (the ordered key/value entries of a dict);
scalars other than strings (numbers, booleans, None) are the constructors the
walker never touches. -/

mutual
inductive Value where
  | str : List Char → Value
  | int : Int → Value
  | bool : Bool → Value
  | null : Value
  | list : VList → Value
  | dict : VDict → Value
  deriving DecidableEq
inductive VList where
  | nil : VList
  | cons : Value → VList → VList
  deriving DecidableEq
inductive VDict where
  | nil : VDict
  | cons : List Char → Value → VDict → VDict
  deriving DecidableEq
end

/-- The fixed list of relationship-designator keys of `sanitize_graph_data`. -/
def designatorKeys : List (List Char) :=
  ["relationship".data, "relation".data, "rel_type".data, "type".data,
    "relationship_type".data]

mutual
/-- Embedding of `sanitize_graph_data`: dicts are rebuilt entry by entry, a
designator-keyed string value is sanitized directly, every other value is
walked recursively; list elements are walked; a free-standing string is
sanitized exactly when it contains more than one colon; anything else is
returned unchanged. -/
def sanitize_graph_data : Value → Value
  | Value.dict d => Value.dict (sanitizeDict d)
  | Value.list l => Value.list (sanitizeList l)
  | Value.str s =>
      if 1 < s.count ':' then Value.str (sanitize_relationship_type s)
      else Value.str s
  | v => v

/-- The list-comprehension branch of `sanitize_graph_data`. -/
def sanitizeList : VList → VList
  | VList.nil => VList.nil
  | VList.cons v rest => VList.cons (sanitize_graph_data v) (sanitizeList rest)

/-- The dict branch of `sanitize_graph_data`: for each entry, a designator key
with a string value gets `sanitize_relationship_type` applied directly, any
other value is walked recursively. -/
def sanitizeDict : VDict → VDict
  | VDict.nil => VDict.nil
  | VDict.cons k v rest =>
      if k ∈ designatorKeys then
        match v with
        | Value.str s =>
            VDict.cons k (Value.str (sanitize_relationship_type s)) (sanitizeDict rest)
        | v => VDict.cons k (sanitize_graph_data v) (sanitizeDict rest)
      else VDict.cons k (sanitize_graph_data v) (sanitizeDict rest)
end

example :
    sanitize_graph_data (Value.dict (VDict.cons "relationship".data
      (Value.str "a:b:c".data) VDict.nil)) =
    Value.dict (VDict.cons "relationship".data (Value.str "a_b_c".data) VDict.nil) := by
  decide

example :
    sanitize_graph_data (Value.dict (VDict.cons "note".data
      (Value.str "a:b".data) VDict.nil)) =
    Value.dict (VDict.cons "note".data (Value.str "a:b".data) VDict.nil) := rfl

/-- The list of keys of a dict embedding, in iteration order. -/
def keysD : VDict → List (List Char)
  | VDict.nil => []
  | VDict.cons k _ rest => k :: keysD rest

/-- Spec-side description of one dict entry (§4.2 of the design): if the key
is a designator key AND the value is a string, the value is replaced by
`sanitize_relationship_type` of that string, without recursing into it;
every other entry's value is recursively walked. -/
def specEntryDict : VDict → VDict
  | VDict.nil => VDict.nil
  | VDict.cons k v rest =>
      match v with
      | Value.str s =>
          if k ∈ designatorKeys then
            VDict.cons k (Value.str (sanitize_relationship_type s)) (specEntryDict rest)
          else VDict.cons k (sanitize_graph_data (Value.str s)) (specEntryDict rest)
      | v => VDict.cons k (sanitize_graph_data v) (specEntryDict rest)

theorem sanitizeDict_eq_spec : ∀ d : VDict, sanitizeDict d = specEntryDict d
  | VDict.nil => rfl
  | VDict.cons k v rest => by
    cases v <;> by_cases hk : k ∈ designatorKeys <;>
      simp [sanitizeDict, specEntryDict, hk, sanitizeDict_eq_spec rest]

theorem keysD_sanitizeDict : ∀ d : VDict, keysD (sanitizeDict d) = keysD d
  | VDict.nil => rfl
  | VDict.cons k v rest => by
    cases v <;> by_cases hk : k ∈ designatorKeys <;>
      simp [sanitizeDict, keysD, hk, keysD_sanitizeDict rest]

/-- C5: every dict entry with a designator key and string value gets the token
sanitizer applied directly to the string (no structural recursion into it),
every other entry's value is recursively walked; keys and their order are
preserved; and the dict with key `relationship` and value `a:b:c` maps to the
same dict with value `a_b_c`. -/
theorem claim_C5 :
    (∀ d : VDict, sanitizeDict d = specEntryDict d) ∧
    (∀ d : VDict, keysD (sanitizeDict d) = keysD d) ∧
    sanitize_graph_data (Value.dict (VDict.cons "relationship".data
      (Value.str "a:b:c".data) VDict.nil)) =
      Value.dict (VDict.cons "relationship".data (Value.str "a_b_c".data) VDict.nil) :=
  ⟨sanitizeDict_eq_spec, keysD_sanitizeDict, by decide⟩

/-- C6: a free-standing string value is sanitized exactly when it contains
more than one colon; with zero or one colon it is returned unchanged; and the
concrete dicts with `note` values `x:y:z` and `a:b` behave accordingly. -/
theorem claim_C6 :
    (∀ s : List Char, 1 < s.count ':' →
      sanitize_graph_data (Value.str s) = Value.str (sanitize_relationship_type s)) ∧
    (∀ s : List Char, s.count ':' ≤ 1 →
      sanitize_graph_data (Value.str s) = Value.str s) ∧
    sanitize_graph_data (Value.dict (VDict.cons "note".data
      (Value.str "x:y:z".data) VDict.nil)) =
      Value.dict (VDict.cons "note".data (Value.str "x_y_z".data) VDict.nil) ∧
    sanitize_graph_data (Value.dict (VDict.cons "note".data
      (Value.str "a:b".data) VDict.nil)) =
      Value.dict (VDict.cons "note".data (Value.str "a:b".data) VDict.nil) := by
  refine ⟨fun s h => ?_, fun s h => ?_, by decide, by decide⟩
  · rw [sanitize_graph_data, if_pos h]
  · rw [sanitize_graph_data, if_neg (by omega)]

/-- Witness for C6 at the concrete strings `x:y:z` (two colons, sanitized) and
`a:b` (one colon, unchanged). -/
theorem claim_C6_witness :
    sanitize_graph_data (Value.str "x:y:z".data) =
      Value.str (sanitize_relationship_type "x:y:z".data) ∧
    sanitize_graph_data (Value.str "a:b".data) = Value.str "a:b".data :=
  ⟨claim_C6.1 ("x:y:z".data) (by decide), claim_C6.2.1 ("a:b".data) (by decide)⟩

/-! ## Structural fidelity of the walker (C7) -/

mutual
/-- Erase every string value (keys are untouched): two payloads with equal
erasures have the same dict key sets and order, the same list lengths and the
same non-string scalar values, and can differ only at string values. -/
def eraseV : Value → Value
  | Value.str _ => Value.str []
  | Value.list l => Value.list (eraseL l)
  | Value.dict d => Value.dict (eraseD d)
  | v => v
def eraseL : VList → VList
  | VList.nil => VList.nil
  | VList.cons v rest => VList.cons (eraseV v) (eraseL rest)
def eraseD : VDict → VDict
  | VDict.nil => VDict.nil
  | VDict.cons k v rest => VDict.cons k (eraseV v) (eraseD rest)
end

mutual
/-- A payload with none of the positions C7 allows to change: no string value
under a designator key, and every free-standing string has at most one
colon. -/
def untouchedV : Value → Bool
  | Value.str s => decide (s.count ':' ≤ 1)
  | Value.list l => untouchedL l
  | Value.dict d => untouchedD d
  | _ => true
def untouchedL : VList → Bool
  | VList.nil => true
  | VList.cons v rest => untouchedV v && untouchedL rest
def untouchedD : VDict → Bool
  | VDict.nil => true
  | VDict.cons k (Value.str s) rest =>
      (if k ∈ designatorKeys then false else decide (s.count ':' ≤ 1)) && untouchedD rest
  | VDict.cons _k v rest => untouchedV v && untouchedD rest
end

mutual
theorem eraseV_sanitize : ∀ v : Value, eraseV (sanitize_graph_data v) = eraseV v
  | Value.str s => by
    rw [sanitize_graph_data]
    split <;> rfl
  | Value.int n => rfl
  | Value.bool b => rfl
  | Value.null => rfl
  | Value.list l => by
    rw [sanitize_graph_data, eraseV, eraseV, eraseL_sanitize l]
  | Value.dict d => by
    rw [sanitize_graph_data, eraseV, eraseV, eraseD_sanitize d]
termination_by v => sizeOf v
theorem eraseL_sanitize : ∀ l : VList, eraseL (sanitizeList l) = eraseL l
  | VList.nil => rfl
  | VList.cons v rest => by
    rw [sanitizeList, eraseL, eraseL, eraseV_sanitize v, eraseL_sanitize rest]
termination_by l => sizeOf l
theorem eraseD_sanitize : ∀ d : VDict, eraseD (sanitizeDict d) = eraseD d
  | VDict.nil => rfl
  | VDict.cons k v rest => by
    by_cases hk : k ∈ designatorKeys
    · cases v with
      | str s => simp only [sanitizeDict, if_pos hk, eraseD, eraseV, eraseD_sanitize rest]
      | int n =>
        simp only [sanitizeDict, if_pos hk, eraseD, eraseD_sanitize rest]
        rw [eraseV_sanitize (Value.int n)]
      | bool b =>
        simp only [sanitizeDict, if_pos hk, eraseD, eraseD_sanitize rest]
        rw [eraseV_sanitize (Value.bool b)]
      | null =>
        simp only [sanitizeDict, if_pos hk, eraseD, eraseD_sanitize rest]
        rw [eraseV_sanitize Value.null]
      | list l =>
        simp only [sanitizeDict, if_pos hk, eraseD, eraseD_sanitize rest]
        rw [eraseV_sanitize (Value.list l)]
      | dict d2 =>
        simp only [sanitizeDict, if_pos hk, eraseD, eraseD_sanitize rest]
        rw [eraseV_sanitize (Value.dict d2)]
    · cases v with
      | str s =>
        simp only [sanitizeDict, if_neg hk, eraseD, eraseD_sanitize rest]
        rw [eraseV_sanitize (Value.str s)]
      | int n =>
        simp only [sanitizeDict, if_neg hk, eraseD, eraseD_sanitize rest]
        rw [eraseV_sanitize (Value.int n)]
      | bool b =>
        simp only [sanitizeDict, if_neg hk, eraseD, eraseD_sanitize rest]
        rw [eraseV_sanitize (Value.bool b)]
      | null =>
        simp only [sanitizeDict, if_neg hk, eraseD, eraseD_sanitize rest]
        rw [eraseV_sanitize Value.null]
      | list l =>
        simp only [sanitizeDict, if_neg hk, eraseD, eraseD_sanitize rest]
        rw [eraseV_sanitize (Value.list l)]
      | dict d2 =>
        simp only [sanitizeDict, if_neg hk, eraseD, eraseD_sanitize rest]
        rw [eraseV_sanitize (Value.dict d2)]
termination_by d => sizeOf d
end

mutual
theorem untouchedV_sanitize :
    ∀ v : Value, untouchedV v = true → sanitize_graph_data v = v
  | Value.str s, h => by
    rw [untouchedV, decide_eq_true_eq] at h
    rw [sanitize_graph_data, if_neg (by omega)]
  | Value.int n, _ => rfl
  | Value.bool b, _ => rfl
  | Value.null, _ => rfl
  | Value.list l, h => by
    rw [untouchedV] at h
    rw [sanitize_graph_data, untouchedL_sanitize l h]
  | Value.dict d, h => by
    rw [untouchedV] at h
    rw [sanitize_graph_data, untouchedD_sanitize d h]
termination_by v => sizeOf v
theorem untouchedL_sanitize :
    ∀ l : VList, untouchedL l = true → sanitizeList l = l
  | VList.nil, _ => rfl
  | VList.cons v rest, h => by
    rw [untouchedL, Bool.and_eq_true] at h
    rw [sanitizeList, untouchedV_sanitize v h.1, untouchedL_sanitize rest h.2]
termination_by l => sizeOf l
theorem untouchedD_sanitize :
    ∀ d : VDict, untouchedD d = true → sanitizeDict d = d
  | VDict.nil, _ => rfl
  | VDict.cons k (Value.str s) rest, h => by
    rw [untouchedD, Bool.and_eq_true] at h
    obtain ⟨h1, h2⟩ := h
    by_cases hk : k ∈ designatorKeys
    · rw [if_pos hk] at h1
      exact absurd h1 (by simp)
    · rw [if_neg hk, decide_eq_true_eq] at h1
      rw [sanitizeDict, if_neg hk, untouchedD_sanitize rest h2,
        sanitize_graph_data, if_neg (by omega)]
  | VDict.cons k (Value.int n) rest, h => by
    simp only [untouchedD, Bool.and_eq_true] at h
    by_cases hk : k ∈ designatorKeys <;>
      simp [sanitizeDict, sanitize_graph_data, hk, untouchedD_sanitize rest h.2]
  | VDict.cons k (Value.bool b) rest, h => by
    simp only [untouchedD, Bool.and_eq_true] at h
    by_cases hk : k ∈ designatorKeys <;>
      simp [sanitizeDict, sanitize_graph_data, hk, untouchedD_sanitize rest h.2]
  | VDict.cons k Value.null rest, h => by
    simp only [untouchedD, Bool.and_eq_true] at h
    by_cases hk : k ∈ designatorKeys <;>
      simp [sanitizeDict, sanitize_graph_data, hk, untouchedD_sanitize rest h.2]
  | VDict.cons k (Value.list l) rest, h => by
    simp only [untouchedD, Bool.and_eq_true] at h
    have hv := untouchedV_sanitize (Value.list l) h.1
    by_cases hk : k ∈ designatorKeys <;>
      simp [sanitizeDict, hk, untouchedD_sanitize rest h.2, hv]
  | VDict.cons k (Value.dict d2) rest, h => by
    simp only [untouchedD, Bool.and_eq_true] at h
    have hv := untouchedV_sanitize (Value.dict d2) h.1
    by_cases hk : k ∈ designatorKeys <;>
      simp [sanitizeDict, hk, untouchedD_sanitize rest h.2, hv]
termination_by d => sizeOf d
end

mutual
/-- Pointwise frame relation between a payload and its walked output: at every
position the output equals the input — same non-string scalars, same list
shape, same keys in the same order — except that a string value under a
designator key or a free-standing string with more than one colon may be
replaced by some (arbitrary) string.  Holding at every payload, it pins each
sibling of a touchable position: a free string with at most one colon can only
relate to itself. -/
inductive FidelityV : Value → Value → Prop where
  | strSame (s : List Char) : FidelityV (Value.str s) (Value.str s)
  | strMulti (s o : List Char) : 1 < s.count ':' →
      FidelityV (Value.str s) (Value.str o)
  | int (n : Int) : FidelityV (Value.int n) (Value.int n)
  | bool (b : Bool) : FidelityV (Value.bool b) (Value.bool b)
  | null : FidelityV Value.null Value.null
  | list {l l' : VList} : FidelityL l l' → FidelityV (Value.list l) (Value.list l')
  | dict {d d' : VDict} : FidelityD d d' → FidelityV (Value.dict d) (Value.dict d')
inductive FidelityL : VList → VList → Prop where
  | nil : FidelityL VList.nil VList.nil
  | cons {v v' : Value} {r r' : VList} : FidelityV v v' → FidelityL r r' →
      FidelityL (VList.cons v r) (VList.cons v' r')
inductive FidelityD : VDict → VDict → Prop where
  | nil : FidelityD VDict.nil VDict.nil
  | consStr {k s o : List Char} {r r' : VDict} :
      k ∈ designatorKeys → FidelityD r r' →
      FidelityD (VDict.cons k (Value.str s) r) (VDict.cons k (Value.str o) r')
  | consRec {k : List Char} {v v' : Value} {r r' : VDict} :
      FidelityV v v' → FidelityD r r' →
      FidelityD (VDict.cons k v r) (VDict.cons k v' r')
end

mutual
theorem fidelityV_sanitize : ∀ v : Value, FidelityV v (sanitize_graph_data v)
  | Value.str s => by
    rw [sanitize_graph_data]
    split
    · exact FidelityV.strMulti _ _ (by assumption)
    · exact FidelityV.strSame s
  | Value.int n => FidelityV.int n
  | Value.bool b => FidelityV.bool b
  | Value.null => FidelityV.null
  | Value.list l => by
    rw [sanitize_graph_data]
    exact FidelityV.list (fidelityL_sanitize l)
  | Value.dict d => by
    rw [sanitize_graph_data]
    exact FidelityV.dict (fidelityD_sanitize d)
termination_by v => sizeOf v
theorem fidelityL_sanitize : ∀ l : VList, FidelityL l (sanitizeList l)
  | VList.nil => FidelityL.nil
  | VList.cons v r => by
    rw [sanitizeList]
    exact FidelityL.cons (fidelityV_sanitize v) (fidelityL_sanitize r)
termination_by l => sizeOf l
theorem fidelityD_sanitize : ∀ d : VDict, FidelityD d (sanitizeDict d)
  | VDict.nil => FidelityD.nil
  | VDict.cons k v r => by
    by_cases hk : k ∈ designatorKeys
    · cases v with
      | str s =>
        simp only [sanitizeDict, if_pos hk]
        exact FidelityD.consStr hk (fidelityD_sanitize r)
      | int n =>
        simp only [sanitizeDict, if_pos hk]
        exact FidelityD.consRec (fidelityV_sanitize (Value.int n)) (fidelityD_sanitize r)
      | bool b =>
        simp only [sanitizeDict, if_pos hk]
        exact FidelityD.consRec (fidelityV_sanitize (Value.bool b)) (fidelityD_sanitize r)
      | null =>
        simp only [sanitizeDict, if_pos hk]
        exact FidelityD.consRec (fidelityV_sanitize Value.null) (fidelityD_sanitize r)
      | list l =>
        simp only [sanitizeDict, if_pos hk]
        exact FidelityD.consRec (fidelityV_sanitize (Value.list l)) (fidelityD_sanitize r)
      | dict d2 =>
        simp only [sanitizeDict, if_pos hk]
        exact FidelityD.consRec (fidelityV_sanitize (Value.dict d2)) (fidelityD_sanitize r)
    · cases v with
      | str s =>
        simp only [sanitizeDict, if_neg hk]
        exact FidelityD.consRec (fidelityV_sanitize (Value.str s)) (fidelityD_sanitize r)
      | int n =>
        simp only [sanitizeDict, if_neg hk]
        exact FidelityD.consRec (fidelityV_sanitize (Value.int n)) (fidelityD_sanitize r)
      | bool b =>
        simp only [sanitizeDict, if_neg hk]
        exact FidelityD.consRec (fidelityV_sanitize (Value.bool b)) (fidelityD_sanitize r)
      | null =>
        simp only [sanitizeDict, if_neg hk]
        exact FidelityD.consRec (fidelityV_sanitize Value.null) (fidelityD_sanitize r)
      | list l =>
        simp only [sanitizeDict, if_neg hk]
        exact FidelityD.consRec (fidelityV_sanitize (Value.list l)) (fidelityD_sanitize r)
      | dict d2 =>
        simp only [sanitizeDict, if_neg hk]
        exact FidelityD.consRec (fidelityV_sanitize (Value.dict d2)) (fidelityD_sanitize r)
termination_by d => sizeOf d
end

/-- C7: the walker preserves all structure — erasing every string value from
the output gives the erasure of the input (same key sets and order, same list
lengths, same non-string scalars, keys never modified) — and, pointwise, every
payload is related to its output by the frame relation `FidelityV`, which
forces equality at every position other than a designator-keyed string value
or a free-standing string with more than one colon (so in any payload,
including one that also contains touchable positions, an untouchable sibling
is unchanged); finally, a payload with no touchable position at all is
returned entirely unchanged. -/
theorem claim_C7 :
    (∀ v : Value, eraseV (sanitize_graph_data v) = eraseV v) ∧
    (∀ v : Value, FidelityV v (sanitize_graph_data v)) ∧
    (∀ v : Value, untouchedV v = true → sanitize_graph_data v = v) :=
  ⟨eraseV_sanitize, fidelityV_sanitize, untouchedV_sanitize⟩

/-- Witness for C7 on a concrete payload with a non-designator key, a single
colon string, an integer and a list: it is untouched by the walker. -/
theorem claim_C7_witness :
    untouchedV (Value.dict (VDict.cons "note".data (Value.str "a:b".data)
      (VDict.cons "n".data (Value.list (VList.cons (Value.int 3) VList.nil))
        VDict.nil))) = true ∧
    sanitize_graph_data (Value.dict (VDict.cons "note".data (Value.str "a:b".data)
      (VDict.cons "n".data (Value.list (VList.cons (Value.int 3) VList.nil))
        VDict.nil))) =
      Value.dict (VDict.cons "note".data (Value.str "a:b".data)
        (VDict.cons "n".data (Value.list (VList.cons (Value.int 3) VList.nil))
          VDict.nil)) :=
  ⟨by decide, claim_C7.2.2 _ (by decide)⟩

/-! ## Query statement rewriter (`patched_query`)

`patched_query` rewrites a Cypher query with
`re.sub(r'-\[(?:r)?:([^\]]+)\]->', replace_relationship_type, query)` where
the replacement callback returns
`full_match.replace(rel_type, sanitize_relationship_type(rel_type))`.

The `re` semantics of this concrete pattern: at a given position the pattern
matches iff the text reads `-[`, then optionally the single literal letter
`r`, then `:`, then a non-empty run of non-`]` characters (the token, which
must end at the first `]` because the class excludes `]`), then `]->`.
`re.sub` scans left to right; on a failed match it advances one character, on
a successful match it emits the callback's result and resumes after the
matched span (non-overlapping). -/

/-- Split the text after `-[` `(r)?` `:` into the token (the maximal run of
non-`]` characters, which the pattern requires to be non-empty) and the text
after the mandatory `]->`. -/
def splitToken (l : List Char) : Option (List Char × List Char) :=
  match l.dropWhile (· != ']') with
  | ']' :: '-' :: '>' :: rest =>
      if l.takeWhile (· != ']') = [] then none
      else some (l.takeWhile (· != ']'), rest)
  | _ => none

/-- Try to match the regex `-\[(?:r)?:([^\]]+)\]->` at the head of `s`;
returns (full match, token group, rest of the text). -/
def matchEdge : List Char → Option (List Char × List Char × List Char)
  | '-' :: '[' :: 'r' :: ':' :: rest =>
      match splitToken rest with
      | some (tok, rest') =>
          some ('-' :: '[' :: 'r' :: ':' :: (tok ++ [']', '-', '>']), tok, rest')
      | none => none
  | '-' :: '[' :: ':' :: rest =>
      match splitToken rest with
      | some (tok, rest') =>
          some ('-' :: '[' :: ':' :: (tok ++ [']', '-', '>']), tok, rest')
      | none => none
  | _ => none

/-- Embedding of Python `s.replace(old, new)` for non-empty `old`: scan left
to right, replacing each non-overlapping occurrence, resuming after the
replacement.  The budget argument decreases by one per emitted position and
`s.length` always suffices. -/
def strReplaceGo : Nat → List Char → List Char → List Char → List Char
  | 0, _, _, s => s
  | _ + 1, _, _, [] => []
  | fuel + 1, old, new, c :: rest =>
      if old.isPrefixOf (c :: rest) then
        new ++ strReplaceGo fuel old new ((c :: rest).drop old.length)
      else c :: strReplaceGo fuel old new rest

/-- Python `s.replace(old, new)`.  The rewriter only calls this with the
non-empty regex group as `old`; the empty-`old` guard is unreachable there. -/
def strReplace (old new s : List Char) : List Char :=
  if old = [] then s else strReplaceGo s.length old new s

/-- The `re.sub` scan of `patched_query`: at each position try the edge
pattern; on a match emit `full_match.replace(rel_type, sanitized)` and resume
after the span, otherwise emit one character and advance.  The budget
decreases by one per step while each step consumes at least one input
character, so `s.length` always suffices. -/
def rewriteGo : Nat → List Char → List Char
  | 0, s => s
  | _ + 1, [] => []
  | fuel + 1, c :: rest =>
      match matchEdge (c :: rest) with
      | some (fm, tok, rest') =>
          strReplace tok (sanitize_relationship_type tok) fm ++ rewriteGo fuel rest'
      | none => c :: rewriteGo fuel rest

/-- Embedding of the query rewriting performed by `patched_query`. -/
def rewriteQuery (s : List Char) : List Char := rewriteGo s.length s

example :
    rewriteQuery ("MATCH (a)-[r:WORKS:AT]->(b) RETURN a".data) =
      "MATCH (a)-[r:WORKS_AT]->(b) RETURN a".data := by decide

example :
    rewriteQuery ("MATCH (a)-[:valid_type]->(b)".data) =
      "MATCH (a)-[:valid_type]->(b)".data := by decide

example :
    rewriteQuery ("MATCH (a)<-[r:BAD:TYPE]-(b)".data) =
      "MATCH (a)<-[r:BAD:TYPE]-(b)".data := by decide

/-! ## Lemmas about the query rewriter -/

theorem splitToken_eq_some {l tok r : List Char} (h : splitToken l = some (tok, r)) :
    l = tok ++ ']' :: '-' :: '>' :: r ∧ tok ≠ [] := by
  unfold splitToken at h
  split at h
  · rename_i heq
    split at h
    · exact absurd h (by simp)
    · rename_i hne
      have hl := List.takeWhile_append_dropWhile (fun c => c != ']') l
      rw [heq] at hl
      injection h with h1
      injection h1 with h1 h2
      subst h1
      subst h2
      exact ⟨hl.symm, hne⟩
  · exact absurd h (by simp)

theorem matchEdge_eq_some {s fm tok r : List Char}
    (h : matchEdge s = some (fm, tok, r)) :
    s = fm ++ r ∧ 6 ≤ fm.length := by
  unfold matchEdge at h
  split at h
  · rename_i rest
    cases hsp : splitToken rest with
    | none => rw [hsp] at h; exact absurd h (by simp)
    | some p =>
      obtain ⟨tok0, rest0⟩ := p
      rw [hsp] at h
      obtain ⟨h1, h2⟩ := splitToken_eq_some hsp
      simp only [Option.some.injEq, Prod.mk.injEq] at h
      obtain ⟨ha, hb, hc⟩ := h
      subst ha hb hc
      constructor
      · simp [h1]
      · have : tok0.length ≠ 0 := by simpa using h2
        simp only [List.length_cons, List.length_append]
        omega
  · rename_i rest
    cases hsp : splitToken rest with
    | none => rw [hsp] at h; exact absurd h (by simp)
    | some p =>
      obtain ⟨tok0, rest0⟩ := p
      rw [hsp] at h
      obtain ⟨h1, h2⟩ := splitToken_eq_some hsp
      simp only [Option.some.injEq, Prod.mk.injEq] at h
      obtain ⟨ha, hb, hc⟩ := h
      subst ha hb hc
      constructor
      · simp [h1]
      · have : tok0.length ≠ 0 := by simpa using h2
        simp only [List.length_cons, List.length_append]
        omega
  · exact absurd h (by simp)

/-- The scan budget is irrelevant as long as it is at least the remaining
length: `rewriteGo` with any two sufficient budgets agrees. -/
theorem rewriteGo_fuel : ∀ (n m : Nat) (s : List Char), s.length ≤ n → s.length ≤ m →
    rewriteGo n s = rewriteGo m s
  | 0, 0, s, _, _ => rfl
  | 0, _ + 1, s, hn, _ => by
    have : s = [] := List.length_eq_zero.1 (Nat.le_zero.1 hn)
    subst this
    rfl
  | _ + 1, 0, s, _, hm => by
    have : s = [] := List.length_eq_zero.1 (Nat.le_zero.1 hm)
    subst this
    rfl
  | n + 1, m + 1, [], _, _ => rfl
  | n + 1, m + 1, c :: rest, hn, hm => by
    rw [rewriteGo]
    conv_rhs => rw [rewriteGo]
    cases hme : matchEdge (c :: rest) with
    | none =>
      simp only []
      simp only [List.length_cons] at hn hm
      rw [rewriteGo_fuel n m rest (by omega) (by omega)]
    | some p =>
      obtain ⟨fm, tok, rest'⟩ := p
      simp only []
      obtain ⟨hs, hlen⟩ := matchEdge_eq_some hme
      have hr : rest'.length + 6 ≤ (c :: rest).length := by
        rw [hs, List.length_append]
        omega
      simp only [List.length_cons] at hn hm hr
      rw [rewriteGo_fuel n m rest' (by omega) (by omega)]

/-- While the head of `old` never occurs in `s`, `str.replace` copies `s`
verbatim under any budget. -/
theorem strReplaceGo_no_occ {o : Char} {os new : List Char} :
    ∀ (n : Nat) (s : List Char), (∀ c ∈ s, c ≠ o) → strReplaceGo n (o :: os) new s = s
  | 0, s, _ => rfl
  | _ + 1, [], _ => rfl
  | n + 1, c :: rest, h => by
    have hoc : (o == c) = false := by
      simp only [beq_eq_false_iff_ne, ne_eq]
      exact fun e => h c (by simp) e.symm
    rw [strReplaceGo, List.isPrefixOf_cons₂, hoc]
    simp only [Bool.false_and, Bool.false_eq_true, if_false]
    rw [strReplaceGo_no_occ n rest (fun c hc => h c (by simp [hc]))]

/-- `str.replace` copies any leading block that avoids the head of `old`. -/
theorem strReplaceGo_skip {o : Char} {os new : List Char} :
    ∀ (pre : List Char) (m : Nat) (l : List Char), (∀ c ∈ pre, c ≠ o) →
      strReplaceGo (pre.length + m) (o :: os) new (pre ++ l) =
        pre ++ strReplaceGo m (o :: os) new l
  | [], m, l, _ => by simp
  | c :: pre, m, l, h => by
    have hoc : (o == c) = false := by
      simp only [beq_eq_false_iff_ne, ne_eq]
      exact fun e => h c (by simp) e.symm
    simp only [List.length_cons, List.cons_append]
    have : pre.length + 1 + m = (pre.length + m) + 1 := by omega
    rw [this, strReplaceGo, List.isPrefixOf_cons₂, hoc]
    simp only [Bool.false_and, Bool.false_eq_true, if_false]
    rw [strReplaceGo_skip pre m l (fun c hc => h c (by simp [hc]))]

/-- `str.replace` fires exactly once when `s` is `old` followed by text that
avoids the head of `old`. -/
theorem strReplaceGo_once {o : Char} {os new : List Char} (k : Nat) (suf : List Char)
    (hsuf : ∀ c ∈ suf, c ≠ o) :
    strReplaceGo (k + 1) (o :: os) new ((o :: os) ++ suf) = new ++ suf := by
  simp only [List.cons_append]
  rw [strReplaceGo]
  have hp : (o :: os).isPrefixOf (o :: (os ++ suf)) = true := by
    rw [List.isPrefixOf_iff_prefix]
    exact (List.prefix_append (o :: os) suf).trans (by simp)
  rw [hp]
  simp only [if_true]
  have hd : (o :: (os ++ suf)).drop (o :: os).length = suf := by
    simp only [List.length_cons, List.drop_succ_cons]
    exact List.drop_left _ _
  rw [hd, strReplaceGo_no_occ k suf hsuf]

/-- The directed-edge clause `-[` optional-`r` `:` TOKEN `]->` of the regex,
as concrete text. -/
def edgeClause : Bool → List Char → List Char
  | true, tok => '-' :: '[' :: 'r' :: ':' :: (tok ++ [']', '-', '>'])
  | false, tok => '-' :: '[' :: ':' :: (tok ++ [']', '-', '>'])

theorem splitToken_append {tok rest : List Char} (h1 : tok ≠ [])
    (h2 : ∀ c ∈ tok, c ≠ ']') :
    splitToken (tok ++ ']' :: '-' :: '>' :: rest) = some (tok, rest) := by
  have hp : ∀ a ∈ tok, (a != ']') = true := fun a ha => by simpa using h2 a ha
  unfold splitToken
  rw [List.dropWhile_append_of_pos hp, List.takeWhile_append_of_pos hp]
  simp [h1]

theorem matchEdge_edgeClause (useR : Bool) {tok rest : List Char} (h1 : tok ≠ [])
    (h2 : ∀ c ∈ tok, c ≠ ']') :
    matchEdge (edgeClause useR tok ++ rest) = some (edgeClause useR tok, tok, rest) := by
  have hassoc : (tok ++ [']', '-', '>']) ++ rest = tok ++ ']' :: '-' :: '>' :: rest := by
    simp
  cases useR <;>
    simp only [edgeClause, List.cons_append, hassoc, matchEdge,
      splitToken_append h1 h2]

/-- `rewriteQuery` on a text whose head matches the edge pattern: emit the
replaced span and continue after it. -/
theorem rewriteQuery_match {s fm tok rest' : List Char}
    (h : matchEdge s = some (fm, tok, rest')) :
    rewriteQuery s =
      strReplace tok (sanitize_relationship_type tok) fm ++ rewriteQuery rest' := by
  obtain ⟨hs, hlen⟩ := matchEdge_eq_some h
  cases s with
  | nil => exact absurd h (by simp [matchEdge])
  | cons c cs =>
    unfold rewriteQuery
    simp only [List.length_cons]
    rw [rewriteGo, h]
    simp only []
    congr 1
    apply rewriteGo_fuel
    · have := congrArg List.length hs
      simp only [List.length_cons, List.length_append] at this
      omega
    · exact Nat.le_refl _

/-- The replacement callback of `patched_query` on a full edge span whose
token does not start with a frame character and hence occurs only in the
token slot: the substitution lands exactly in the token position. -/
theorem strReplace_edgeClause (useR : Bool) (o : Char) (os new : List Char)
    (ho : o ∉ ([']', '-', '>', '[', ':', 'r'] : List Char)) :
    strReplace (o :: os) new (edgeClause useR (o :: os)) = edgeClause useR new := by
  obtain ⟨h1, h2, h3, h4, h5, h6⟩ :
      o ≠ ']' ∧ o ≠ '-' ∧ o ≠ '>' ∧ o ≠ '[' ∧ o ≠ ':' ∧ o ≠ 'r' := by
    simpa [not_or] using ho
  have hsuf : ∀ c ∈ ([']', '-', '>'] : List Char), c ≠ o := by
    intro c hc
    simp only [List.mem_cons, List.not_mem_nil, or_false] at hc
    rcases hc with rfl | rfl | rfl
    · exact fun e => h1 e.symm
    · exact fun e => h2 e.symm
    · exact fun e => h3 e.symm
  unfold strReplace
  rw [if_neg (by simp)]
  cases useR
  case false =>
    have hpre : ∀ c ∈ (['-', '[', ':'] : List Char), c ≠ o := by
      intro c hc
      simp only [List.mem_cons, List.not_mem_nil, or_false] at hc
      rcases hc with rfl | rfl | rfl
      · exact fun e => h2 e.symm
      · exact fun e => h4 e.symm
      · exact fun e => h5 e.symm
    have hshape : edgeClause false (o :: os) =
        ['-', '[', ':'] ++ ((o :: os) ++ [']', '-', '>']) := by
      simp [edgeClause]
    have hlen : (edgeClause false (o :: os)).length =
        (['-', '[', ':'] : List Char).length +
          ((o :: os) ++ ([']', '-', '>'] : List Char)).length := by
      rw [hshape, List.length_append]
    rw [hlen]
    conv_lhs => rw [hshape]
    rw [strReplaceGo_skip ['-', '[', ':'] _ _ hpre]
    have hm : ((o :: os) ++ ([']', '-', '>'] : List Char)).length = (os.length + 3) + 1 := by
      simp [List.length_append]
    rw [hm, strReplaceGo_once (os.length + 3) [']', '-', '>'] hsuf]
    simp [edgeClause]
  case true =>
    have hpre : ∀ c ∈ (['-', '[', 'r', ':'] : List Char), c ≠ o := by
      intro c hc
      simp only [List.mem_cons, List.not_mem_nil, or_false] at hc
      rcases hc with rfl | rfl | rfl | rfl
      · exact fun e => h2 e.symm
      · exact fun e => h4 e.symm
      · exact fun e => h6 e.symm
      · exact fun e => h5 e.symm
    have hshape : edgeClause true (o :: os) =
        ['-', '[', 'r', ':'] ++ ((o :: os) ++ [']', '-', '>']) := by
      simp [edgeClause]
    have hlen : (edgeClause true (o :: os)).length =
        (['-', '[', 'r', ':'] : List Char).length +
          ((o :: os) ++ ([']', '-', '>'] : List Char)).length := by
      rw [hshape, List.length_append]
    rw [hlen]
    conv_lhs => rw [hshape]
    rw [strReplaceGo_skip ['-', '[', 'r', ':'] _ _ hpre]
    have hm : ((o :: os) ++ ([']', '-', '>'] : List Char)).length = (os.length + 3) + 1 := by
      simp [List.length_append]
    rw [hm, strReplaceGo_once (os.length + 3) [']', '-', '>'] hsuf]
    simp [edgeClause]

/-- C1 evaluated at a failing input: on `MATCH (a)-[:-]->(b)` the matched span
is `-[:-]->` with token `-`; the callback computes
`full_match.replace('-', '')`, which removes every hyphen of the span —
including the leading edge marker and the arrow — instead of substituting the
sanitized token into the token position only, so the brackets and arrow of the
span are destroyed and the claimed in-place result `MATCH (a)-[:]->(b)` is not
produced. -/
theorem claim_C1_eval :
    rewriteQuery ("MATCH (a)-[:-]->(b)".data) = "MATCH (a)[:]>(b)".data ∧
    rewriteQuery ("MATCH (a)-[:-]->(b)".data) ≠ "MATCH (a)-[:]->(b)".data := by
  constructor <;> decide

/-- C2 counterexample: the clause `-[x:B:C]->` carries the variable binding
`x` and a token the sanitizer would change, yet the rewriter returns the query
unchanged — the pattern `-\[(?:r)?:([^\]]+)\]->` accepts only an absent
binding or the literal letter `r`, not an arbitrary identifier. -/
theorem claim_C2_counterexample :
    rewriteQuery ("MATCH (a)-[x:B:C]->(b)".data) = "MATCH (a)-[x:B:C]->(b)".data ∧
    sanitize_relationship_type ("B:C".data) ≠ "B:C".data := by
  constructor <;> decide

/-- C2 amended: a directed-edge clause whose variable binding is absent
(`useR = false`) or exactly the literal `r` (`useR = true`) is recognized, and
its token is replaced by the sanitized token in place — provided the token has
no `]` (required by the regex) and does not begin with one of `]`, `-`, `>`,
`[`, `:`, `r`, so that the callback's `full_match.replace` cannot touch the
frame; clauses with any other variable binding are not matched (see the
counterexample). -/
theorem claim_C2_amended (useR : Bool) (o : Char) (os rest : List Char)
    (ho : o ∉ ([']', '-', '>', '[', ':', 'r'] : List Char))
    (hos : ∀ c ∈ os, c ≠ ']') :
    rewriteQuery (edgeClause useR (o :: os) ++ rest) =
      edgeClause useR (sanitize_relationship_type (o :: os)) ++ rewriteQuery rest := by
  have h1 : (o :: os) ≠ ([] : List Char) := by simp
  have h2 : ∀ c ∈ (o :: os), c ≠ ']' := by
    intro c hc
    rcases List.mem_cons.1 hc with rfl | hc
    · intro e
      exact ho (by simp [e])
    · exact hos c hc
  rw [rewriteQuery_match (matchEdge_edgeClause useR h1 h2),
    strReplace_edgeClause useR o os _ ho]

/-- Witness for the amended C2 on the clause `-[r:WORKS:AT]->` followed by
`(b)`. -/
theorem claim_C2_amended_witness :
    ('W' ∉ ([']', '-', '>', '[', ':', 'r'] : List Char)) ∧
    (∀ c ∈ ("ORKS:AT".data : List Char), c ≠ ']') ∧
    rewriteQuery (edgeClause true ('W' :: "ORKS:AT".data) ++ "(b)".data) =
      edgeClause true (sanitize_relationship_type ('W' :: "ORKS:AT".data)) ++
        rewriteQuery ("(b)".data) :=
  ⟨by decide, by decide,
    claim_C2_amended true 'W' ("ORKS:AT".data) ("(b)".data) (by decide) (by decide)⟩

/-! ## Interception installer (`patch_mem0_graph`, `patch_neo4j_queries`,
`apply_all_patches`)

Each sub-installation body (import the external class, look up and replace
the entry point) either succeeds or raises; the Python `try/except
ImportError/except Exception` around it catches both kinds.  The body's
outcome is modelled as an `Except PyExc Unit`; the installer maps it to the
log record it emits and never re-raises. -/

/-- The two kinds of exception an installation body can raise: the import of
the external dependency fails, or anything else goes wrong. -/
inductive PyExc where
  | importError : PyExc
  | otherExc : PyExc
  deriving DecidableEq

/-- The level of the record each branch of the installer logs. -/
inductive LogLevel where
  | info : LogLevel
  | warning : LogLevel
  | error : LogLevel
  deriving DecidableEq

/-- The `try/except` of `patch_mem0_graph` and `patch_neo4j_queries`: a
successful body logs at info level, an `ImportError` is caught and logged as a
warning, any other exception is caught and logged as an error; no exception
escapes. -/
def installSub (body : Except PyExc Unit) : Except PyExc LogLevel :=
  match body with
  | Except.ok _ => Except.ok LogLevel.info
  | Except.error PyExc.importError => Except.ok LogLevel.warning
  | Except.error PyExc.otherExc => Except.ok LogLevel.error

/-- `apply_all_patches`: run the ingestion sub-installation, then the
query-execution sub-installation.  The sequencing is exception-propagating
(`bind`): if the first call raised, the second would be skipped and the caller
would see the exception. -/
def apply_all_patches (mem0Body neo4jBody : Except PyExc Unit) :
    Except PyExc (LogLevel × LogLevel) :=
  (installSub mem0Body).bind fun a =>
    (installSub neo4jBody).bind fun b => Except.ok (a, b)

/-- The log level each possible body outcome produces under the installer's
`try/except`. -/
def installLevel : Except PyExc Unit → LogLevel
  | Except.ok _ => LogLevel.info
  | Except.error PyExc.importError => LogLevel.warning
  | Except.error PyExc.otherExc => LogLevel.error

theorem installSub_eq (body : Except PyExc Unit) :
    installSub body = Except.ok (installLevel body) := by
  cases body with
  | ok u => rfl
  | error e => cases e <;> rfl

theorem apply_all_patches_eq (a b : Except PyExc Unit) :
    apply_all_patches a b = Except.ok (installLevel a, installLevel b) := by
  unfold apply_all_patches
  rw [installSub_eq, installSub_eq]
  rfl

/-- C8: whatever each installation body does — succeed, fail to import, or
raise any other exception — the installer returns normally with both
sub-installations attempted, and the outcome recorded for the second
sub-installation does not depend on the first body's outcome (and
symmetrically, the first's does not depend on the second's). -/
theorem claim_C8 :
    (∀ a b : Except PyExc Unit, ∃ la lb : LogLevel,
      apply_all_patches a b = Except.ok (la, lb)) ∧
    (∀ a a2 b : Except PyExc Unit,
      (apply_all_patches a b).map Prod.snd = (apply_all_patches a2 b).map Prod.snd) ∧
    (∀ a b b2 : Except PyExc Unit,
      (apply_all_patches a b).map Prod.fst = (apply_all_patches a b2).map Prod.fst) := by
  refine ⟨fun a b => ⟨_, _, apply_all_patches_eq a b⟩, fun a a2 b => ?_, fun a b b2 => ?_⟩
  · rw [apply_all_patches_eq, apply_all_patches_eq]
    rfl
  · rw [apply_all_patches_eq, apply_all_patches_eq]
    rfl

/-! ## The installed wrappers (`patched_add`, `patched_query`) -/

/-- Embedding of the wrapper `patched_add`: run the structure walker over the
payload, then call the original entry point with the sanitized payload and
the filter object passed through, returning whatever the original returns.
The original entry point, the self receiver, the filter type and the result
type are arbitrary. -/
def patched_add {σ φ ρ : Type} (original_add : σ → Value → Option φ → ρ)
    (self : σ) (data : Value) (filters : Option φ) : ρ :=
  original_add self (sanitize_graph_data data) filters

/-- Embedding of the wrapper `patched_query`: rewrite the statement, then call
the original entry point with the rewritten statement and the parameter
mapping passed through, returning whatever the original returns. -/
def patched_query {σ π ρ : Type} (original_query : σ → List Char → Option π → ρ)
    (self : σ) (query : List Char) (params : Option π) : ρ :=
  original_query self (rewriteQuery query) params

/-- C9: each wrapper transforms only its designated first argument — the
ingestion wrapper calls the original with the walked payload and the very
same filters and returns exactly the original's result; the query wrapper
calls the original with the rewritten statement and the very same parameters
and returns exactly the original's result. -/
theorem claim_C9 :
    (∀ (σ φ ρ : Type) (original_add : σ → Value → Option φ → ρ)
      (self : σ) (data : Value) (filters : Option φ),
        patched_add original_add self data filters =
          original_add self (sanitize_graph_data data) filters) ∧
    (∀ (σ π ρ : Type) (original_query : σ → List Char → Option π → ρ)
      (self : σ) (query : List Char) (params : Option π),
        patched_query original_query self query params =
          original_query self (rewriteQuery query) params) :=
  ⟨fun _ _ _ _ _ _ _ => rfl, fun _ _ _ _ _ _ _ => rfl⟩
